import Mathlib

/-!
Verification of the tree-mutation engine of the draggable-accordion repository.

The data model and the operations below are shallow embeddings of the
TypeScript source: `MenuItem`, `removeItemFromTree`, `insertItemInTree` and
`isDescendant` come from the drag-and-drop menu component (Design A);
`flattenWithParent`, `rebuildTreeFromFlat`, the flat-list reorder of
`handleDrop`, `handlePromote` and `handleDemote` come from the
flatten/rebuild variant (Design B); `removeItemById` comes from the
page-level helper.  JavaScript truthiness of the optional fields
(`undefined`, `null` and `""` are falsy, `[]` is truthy) is modelled
explicitly at each use site.
-/

/-- The tree element type of the source: `{ id, label, children? }`.
An absent `children` field is `none`; an explicit (possibly empty)
array is `some`. -/
inductive MenuItem : Type where
  | mk (id : String) (label : String) (children : Option (List MenuItem)) : MenuItem

def MenuItem.id : MenuItem → String
  | .mk i _ _ => i

def MenuItem.label : MenuItem → String
  | .mk _ l _ => l

def MenuItem.children : MenuItem → Option (List MenuItem)
  | .mk _ _ c => c

/-- The children of a node with an absent `children` field read as the empty
list, matching how every consumer of the field treats `undefined`. -/
def MenuItem.childrenD (t : MenuItem) : List MenuItem :=
  t.children.getD []

mutual

def MenuItem.beq : MenuItem → MenuItem → Bool
  | .mk i l none, .mk i2 l2 none => i == i2 && l == l2
  | .mk i l (some cs), .mk i2 l2 (some cs2) => i == i2 && l == l2 && MenuItem.beqF cs cs2
  | _, _ => false

def MenuItem.beqF : List MenuItem → List MenuItem → Bool
  | [], [] => true
  | a :: as, b :: bs => MenuItem.beq a b && MenuItem.beqF as bs
  | _, _ => false

end

mutual

theorem MenuItem.beq_iff : ∀ (a b : MenuItem), (MenuItem.beq a b = true) ↔ a = b
  | .mk i l none, .mk i2 l2 none => by simp [MenuItem.beq]
  | .mk i l (some cs), .mk i2 l2 (some cs2) => by
      have h := MenuItem.beqF_iff cs cs2
      simp [MenuItem.beq, h, and_assoc]
  | .mk i l none, .mk i2 l2 (some cs2) => by simp [MenuItem.beq]
  | .mk i l (some cs), .mk i2 l2 none => by simp [MenuItem.beq]

theorem MenuItem.beqF_iff : ∀ (as bs : List MenuItem), (MenuItem.beqF as bs = true) ↔ as = bs
  | [], [] => by simp [MenuItem.beqF]
  | a :: as, b :: bs => by
      have h1 := MenuItem.beq_iff a b
      have h2 := MenuItem.beqF_iff as bs
      simp [MenuItem.beqF, h1, h2]
  | [], _ :: _ => by simp [MenuItem.beqF]
  | _ :: _, [] => by simp [MenuItem.beqF]

end

instance : DecidableEq MenuItem := fun a b => decidable_of_iff _ (MenuItem.beq_iff a b)

/-- Removal, following `removeItemFromTree` of the menu component.  The
source folds left over the sibling list: a matching item is dropped (a copy
of it is recorded as the removed node, later matches overwriting earlier
ones), an item whose non-empty children list was searched is rebuilt with
`children: newChildren.length > 0 ? newChildren : undefined`, and any other
item is copied unchanged.  The fold of the source runs left to right and the
last assignment to `removed` wins, so the recursion below prefers a match
found in the remaining items over one found in the head. -/
def removeItemFromTree : List MenuItem → String → Option MenuItem × List MenuItem
  | [], _ => (none, [])
  | MenuItem.mk i l c :: rest, id =>
    let tr := removeItemFromTree rest id
    if i == id then
      (match tr.1 with
       | some r => some r
       | none => some (MenuItem.mk i l c), tr.2)
    else
      match c with
      | some cs =>
        if cs.length > 0 then
          let cr := removeItemFromTree cs id
          (match tr.1 with
           | some r => some r
           | none => cr.1,
           MenuItem.mk i l (if cr.2.length > 0 then some cr.2 else none) :: tr.2)
        else (tr.1, MenuItem.mk i l (some cs) :: tr.2)
      | none => (tr.1, MenuItem.mk i l none :: tr.2)

/-- The drop relation of the menu component. -/
inductive InsertPos : Type where
  | before
  | after
  | inside
deriving DecidableEq

/-- Insertion, following `insertItemInTree` of the menu component.  For
`inside` the source maps over the level, appending `item` to the children of
the node matching `targetId` and otherwise recursing into any present
children array.  For `before` and `after` it scans the sibling list,
splicing `item` next to a matching node and recursing into non-empty
children lists of the other nodes.  The `inserted` flag of the source is
written but never read when producing the result list, so it is omitted. -/
def insertItemInTree : List MenuItem → MenuItem → String → InsertPos → List MenuItem
  | [], _, _, _ => []
  | MenuItem.mk i l c :: rest, item, targetId, InsertPos.inside =>
    (if i == targetId then
      MenuItem.mk i l (some ((c.getD []) ++ [item]))
     else
      match c with
      | some cs => MenuItem.mk i l (some (insertItemInTree cs item targetId InsertPos.inside))
      | none => MenuItem.mk i l none)
    :: insertItemInTree rest item targetId InsertPos.inside
  | MenuItem.mk i l c :: rest, item, targetId, pos =>
    if i == targetId then
      match pos with
      | InsertPos.before => item :: MenuItem.mk i l c :: insertItemInTree rest item targetId pos
      | _ => MenuItem.mk i l c :: item :: insertItemInTree rest item targetId pos
    else
      match c with
      | some cs =>
        if cs.length > 0 then
          MenuItem.mk i l (some (insertItemInTree cs item targetId pos))
            :: insertItemInTree rest item targetId pos
        else MenuItem.mk i l (some cs) :: insertItemInTree rest item targetId pos
      | none => MenuItem.mk i l none :: insertItemInTree rest item targetId pos

/-- Inner subtree scan of `isDescendant`: true when some node of the forest
has the target id.  A `children` field holding an explicit empty array is
truthy in the source and is searched (vacuously). -/
def checkSubtree (targetId : String) : List MenuItem → Bool
  | [] => false
  | MenuItem.mk i _ (some cs) :: rest =>
    if i == targetId then true
    else if checkSubtree targetId cs then true
    else checkSubtree targetId rest
  | MenuItem.mk i _ none :: rest =>
    if i == targetId then true
    else checkSubtree targetId rest

/-- Outer scan of `isDescendant`: on the first node whose id is `parentId`
the source returns the subtree check of its children (ending the scan of
that sibling list), otherwise it recurses into children and then continues
with the remaining siblings. -/
def findInChildren (parentId targetId : String) : List MenuItem → Bool
  | [] => false
  | MenuItem.mk i _ (some cs) :: rest =>
    if i == parentId then checkSubtree targetId cs
    else if findInChildren parentId targetId cs then true
    else findInChildren parentId targetId rest
  | MenuItem.mk i _ none :: rest =>
    if i == parentId then false
    else findInChildren parentId targetId rest

/-- Ancestry check of the menu component: `isDescendant(tree, parentId,
targetId)`. -/
def isDescendant (tree : List MenuItem) (parentId targetId : String) : Bool :=
  findInChildren parentId targetId tree

/-- A flat entry of Design B: `FlatItem extends MenuItem` with an explicit
`parentId` (null for roots).  The spread in the source keeps the original
`children` field on the entry. -/
structure FlatItem where
  id : String
  label : String
  children : Option (List MenuItem)
  parentId : Option String
deriving DecidableEq

instance : Inhabited FlatItem := ⟨⟨"", "", none, none⟩⟩

/-- The flat entry made from a node and a parent reference. -/
def flatEntry (t : MenuItem) (pid : Option String) : FlatItem :=
  ⟨t.id, t.label, t.children, pid⟩

/-- Pre-order flattening with explicit parent references, following
`flattenWithParent`.  Children are flattened right after their parent entry,
with the parent id as their reference. -/
def flattenWithParent : List MenuItem → Option String → List FlatItem
  | [], _ => []
  | MenuItem.mk i l (some cs) :: rest, parentId =>
    ⟨i, l, some cs, parentId⟩ :: (flattenWithParent cs (some i) ++ flattenWithParent rest parentId)
  | MenuItem.mk i l none :: rest, parentId =>
    ⟨i, l, none, parentId⟩ :: flattenWithParent rest parentId

/-- The label of the shell that `rebuildTreeFromFlat` creates for id `i`:
the source writes one shell per entry into a map keyed by id, so the last
entry with a given id wins. -/
def shellLabel (flatList : List FlatItem) (i : String) : String :=
  ((flatList.filter (fun e => e.id == i)).map (·.label)).getLastD ""

/-- The ids pushed into the children of the shell for `q` during the second
pass of `rebuildTreeFromFlat`: an entry contributes when its `parentId` is
truthy (non-null and non-empty), equals `q`, and a shell for that parent
exists (some entry has that id); otherwise the entry is skipped.  The
contributions keep flat-list order. -/
def childEntryIds (flatList : List FlatItem) (q : String) : List String :=
  (flatList.filter (fun e =>
    match e.parentId with
    | some p => p != "" && p == q && flatList.any (fun x => x.id == p)
    | none => false)).map (·.id)

/-- Materialisation of the shell graph of `rebuildTreeFromFlat` as a tree.
The source builds mutable shells `{id, label, children: []}` in a map and
pushes child shells into parent shells by reference; the returned trees are
exactly the shells reachable from the root shells.  `buildShell` reads that
graph off the flat list.  The fuel bounds the recursion depth; for inputs
without duplicate ids (the only case the engine defines) any chain of
parent references consumes pairwise distinct entries, so a fuel of
`flatList.length` never runs out before the graph is exhausted. -/
def buildShell (flatList : List FlatItem) : Nat → String → MenuItem
  | 0, q => MenuItem.mk q (shellLabel flatList q) (some [])
  | fuel + 1, q =>
    MenuItem.mk q (shellLabel flatList q)
      (some ((childEntryIds flatList q).map (buildShell flatList fuel)))

/-- Rebuilding, following `rebuildTreeFromFlat`: the roots are the entries
whose `parentId` is strictly null, in flat-list order, each materialised
from the shell graph. -/
def rebuildTreeFromFlat (flatList : List FlatItem) : List MenuItem :=
  (flatList.filter (fun e => e.parentId == none)).map
    (fun e => buildShell flatList flatList.length e.id)

/-- The drag position of the flatten/rebuild component. -/
inductive DragPos : Type where
  | above
  | below
deriving DecidableEq

/-- JavaScript `splice(n, 0, a)`: insert at position `n`, appending when `n`
is past the end. -/
def spliceInsert (l : List FlatItem) (n : Nat) (a : FlatItem) : List FlatItem :=
  l.take n ++ a :: l.drop n

/-- The flat-list reorder performed by `handleDrop` (the `newFlatList`
computation): both ids must be found and distinct, the dragged entry is
spliced out, and the insertion index is derived from the target index with
the two adjustment steps of the source. -/
def handleDropFlat (flatList : List FlatItem) (draggedId targetId : String)
    (position : DragPos) : List FlatItem :=
  if draggedId != targetId then
    match flatList.findIdx? (fun x => x.id == draggedId),
        flatList.findIdx? (fun x => x.id == targetId) with
    | some draggedIdx, some targetIdx =>
      let draggedEntry := flatList.getD draggedIdx default
      let listWithout := flatList.eraseIdx draggedIdx
      let insertIdx :=
        match position with
        | DragPos.above => targetIdx
        | DragPos.below => targetIdx + (if draggedIdx < targetIdx then 0 else 1)
      spliceInsert listWithout (if insertIdx > draggedIdx then insertIdx - 1 else insertIdx)
        draggedEntry
    | _, _ => flatList
  else flatList

/-- The new parent reference computed by `handlePromote`:
`flatList.find(x => x.id === p)?.parentId || null`, which collapses a
missing parent entry, a null grandparent and an empty-string grandparent
all to null. -/
def promoteParent (flatList : List FlatItem) (p : String) : Option String :=
  match flatList.find? (fun x => x.id == p) with
  | some pe =>
    match pe.parentId with
    | some g => if g == "" then none else some g
    | none => none
  | none => none

/-- Promotion, following `handlePromote`: flatten, find the entry; when its
`parentId` is truthy, rewrite it to the parent entry pointed-to parent
reference and rebuild, otherwise leave the items unchanged. -/
def handlePromote (items : List MenuItem) (id : String) : List MenuItem :=
  let flatList := flattenWithParent items none
  match flatList.findIdx? (fun x => x.id == id) with
  | some idx =>
    let item := flatList.getD idx default
    match item.parentId with
    | some p =>
      if p != "" then
        rebuildTreeFromFlat (flatList.set idx { item with parentId := promoteParent flatList p })
      else items
    | none => items
  | none => items

/-- The flat-list edit performed by `handleDemote` at a found index
`idx > 0`: the entry gets the id of the immediately preceding entry as its
parent reference, and the preceding entry gets an explicit children array
when it had none. -/
def demotedFlat (flatList : List FlatItem) (idx : Nat) : List FlatItem :=
  let item := flatList.getD idx default
  let prevItem := flatList.getD (idx - 1) default
  (flatList.set idx { item with parentId := some prevItem.id }).set (idx - 1)
    { prevItem with children := match prevItem.children with
        | none => some []
        | some cs => some cs }

/-- Demotion, following `handleDemote`: flatten, find the index of the
entry; when it is positive, apply the flat-list edit and rebuild, otherwise
leave the items unchanged (the source guard `itemIdx > 0` also covers the
not-found index -1). -/
def handleDemote (items : List MenuItem) (id : String) : List MenuItem :=
  let flatList := flattenWithParent items none
  match flatList.findIdx? (fun x => x.id == id) with
  | some idx => if 0 < idx then rebuildTreeFromFlat (demotedFlat flatList idx) else items
  | none => items

/-- Pruning removal, following `removeItemById` of the page: filter out the
matching items of the level (dropping their entire subtrees) and recurse
into any present children array of the survivors, keeping the array
explicit even when it ends up empty. -/
def removeItemById : List MenuItem → String → List MenuItem
  | [], _ => []
  | MenuItem.mk i l (some cs) :: rest, id =>
    if i == id then removeItemById rest id
    else MenuItem.mk i l (some (removeItemById cs id)) :: removeItemById rest id
  | MenuItem.mk i l none :: rest, id =>
    if i == id then removeItemById rest id
    else MenuItem.mk i l none :: removeItemById rest id

/-!  Specification-side helpers: the nodes, ids, height and canonical form
of a forest, used to state the properties of the engine. -/

/-- All nodes of a forest, in pre-order. -/
def nodesF : List MenuItem → List MenuItem
  | [] => []
  | MenuItem.mk i l (some cs) :: rest => MenuItem.mk i l (some cs) :: (nodesF cs ++ nodesF rest)
  | MenuItem.mk i l none :: rest => MenuItem.mk i l none :: nodesF rest

/-- All ids of a forest, in pre-order. -/
def idsF : List MenuItem → List String
  | [] => []
  | MenuItem.mk i _ (some cs) :: rest => i :: (idsF cs ++ idsF rest)
  | MenuItem.mk i _ none :: rest => i :: idsF rest

/-- Number of occurrences of a node value anywhere in a forest. -/
def countF (x : MenuItem) (F : List MenuItem) : Nat :=
  (nodesF F).count x

/-- Height of a forest (a single leaf has height 1). -/
def heightF : List MenuItem → Nat
  | [] => 0
  | MenuItem.mk _ _ (some cs) :: rest => max (heightF cs + 1) (heightF rest)
  | MenuItem.mk _ _ none :: rest => max 1 (heightF rest)

/-- Canonical form of a forest: every `children` field becomes an explicit
(possibly empty) array.  Two forests are equal up to the representation of
missing children exactly when their canonical forms are equal; ids, labels,
shape and sibling order are untouched. -/
def normF : List MenuItem → List MenuItem
  | [] => []
  | MenuItem.mk i l (some cs) :: rest => MenuItem.mk i l (some (normF cs)) :: normF rest
  | MenuItem.mk i l none :: rest => MenuItem.mk i l (some []) :: normF rest

/-- Canonical form of a single node. -/
def normT (t : MenuItem) : MenuItem :=
  MenuItem.mk t.id t.label (some (normF t.childrenD))

/-- True when no node of the forest carries an explicit empty children
array. -/
def noEmptyF : List MenuItem → Bool
  | [] => true
  | MenuItem.mk _ _ (some cs) :: rest => !cs.isEmpty && noEmptyF cs && noEmptyF rest
  | MenuItem.mk _ _ none :: rest => noEmptyF rest

/-- First node of the forest with the given id, in pre-order. -/
def findNodeF : List MenuItem → String → Option MenuItem
  | [], _ => none
  | MenuItem.mk i l (some cs) :: rest, q =>
    if i == q then some (MenuItem.mk i l (some cs))
    else
      match findNodeF cs q with
      | some n => some n
      | none => findNodeF rest q
  | MenuItem.mk i l none :: rest, q =>
    if i == q then some (MenuItem.mk i l none) else findNodeF rest q

/-- Structural induction over forests of menu items. -/
theorem forestInd (P : List MenuItem → Prop)
    (h0 : P [])
    (h1 : ∀ i l cs rest, P cs → P rest → P (MenuItem.mk i l (some cs) :: rest))
    (h2 : ∀ i l rest, P rest → P (MenuItem.mk i l none :: rest)) :
    ∀ F, P F
  | [] => h0
  | MenuItem.mk i l (some cs) :: rest =>
      h1 i l cs rest (forestInd P h0 h1 h2 cs) (forestInd P h0 h1 h2 rest)
  | MenuItem.mk i l none :: rest => h2 i l rest (forestInd P h0 h1 h2 rest)

theorem nodesF_cons (t : MenuItem) (ts : List MenuItem) :
    nodesF (t :: ts) = t :: (nodesF t.childrenD ++ nodesF ts) := by
  cases t with
  | mk i l c =>
    cases c with
    | some cs => simp [nodesF, MenuItem.childrenD, MenuItem.children]
    | none => simp [nodesF, MenuItem.childrenD, MenuItem.children]

theorem idsF_cons (t : MenuItem) (ts : List MenuItem) :
    idsF (t :: ts) = t.id :: (idsF t.childrenD ++ idsF ts) := by
  cases t with
  | mk i l c =>
    cases c with
    | some cs => simp [idsF, MenuItem.childrenD, MenuItem.children, MenuItem.id]
    | none => simp [idsF, MenuItem.childrenD, MenuItem.children, MenuItem.id]

theorem heightF_cons (t : MenuItem) (ts : List MenuItem) :
    heightF (t :: ts) = max (heightF [t]) (heightF ts) := by
  cases t with
  | mk i l c =>
    cases c with
    | some cs => simp [heightF]
    | none => simp [heightF]

theorem normF_cons (t : MenuItem) (ts : List MenuItem) :
    normF (t :: ts) = normT t :: normF ts := by
  cases t with
  | mk i l c =>
    cases c with
    | some cs =>
      simp [normF, normT, MenuItem.childrenD, MenuItem.children, MenuItem.id, MenuItem.label]
    | none =>
      simp [normF, normT, MenuItem.childrenD, MenuItem.children, MenuItem.id, MenuItem.label]

theorem nodesF_append (A B : List MenuItem) :
    nodesF (A ++ B) = nodesF A ++ nodesF B := by
  induction A with
  | nil => simp [nodesF]
  | cons t ts ih => simp [nodesF_cons, ih]

theorem idsF_append (A B : List MenuItem) :
    idsF (A ++ B) = idsF A ++ idsF B := by
  induction A with
  | nil => simp [idsF]
  | cons t ts ih => simp [idsF_cons, ih]

theorem idsF_eq_map (F : List MenuItem) : idsF F = (nodesF F).map MenuItem.id := by
  induction F using forestInd with
  | h0 => simp [idsF, nodesF]
  | h1 i l cs rest ih1 ih2 => simp [idsF, nodesF, ih1, ih2, MenuItem.id]
  | h2 i l rest ih => simp [idsF, nodesF, ih, MenuItem.id]

theorem mem_nodesF_id {n : MenuItem} {F : List MenuItem} (h : n ∈ nodesF F) :
    n.id ∈ idsF F := by
  rw [idsF_eq_map]
  exact List.mem_map_of_mem MenuItem.id h

theorem mem_nodesF_of_mem {t : MenuItem} {ts : List MenuItem} (h : t ∈ ts) :
    t ∈ nodesF ts := by
  induction ts with
  | nil => cases h
  | cons a as ih =>
    rw [nodesF_cons]
    rcases List.mem_cons.1 h with h1 | h1
    · exact h1 ▸ List.mem_cons_self _ _
    · exact List.mem_cons_of_mem _ (List.mem_append_right _ (ih h1))

theorem nodesF_sublist_children :
    ∀ {F : List MenuItem} {n : MenuItem}, n ∈ nodesF F →
      (nodesF n.childrenD).Sublist (nodesF F) := by
  intro F
  induction F using forestInd with
  | h0 => intro n h; rw [show nodesF [] = [] from by simp [nodesF]] at h; cases h
  | h1 i l cs rest ih1 ih2 =>
    intro n h
    rw [show nodesF (MenuItem.mk i l (some cs) :: rest)
          = MenuItem.mk i l (some cs) :: (nodesF cs ++ nodesF rest) from by simp [nodesF]] at h ⊢
    rcases List.mem_cons.1 h with h1 | h1
    · subst h1
      exact List.Sublist.cons _ (List.sublist_append_left (nodesF cs) (nodesF rest))
    · rcases List.mem_append.1 h1 with h2 | h2
      · exact List.Sublist.cons _
          (List.Sublist.trans (ih1 h2) (List.sublist_append_left _ _))
      · exact List.Sublist.cons _
          (List.Sublist.trans (ih2 h2) (List.sublist_append_right _ _))
  | h2 i l rest ih =>
    intro n h
    rw [show nodesF (MenuItem.mk i l none :: rest)
          = MenuItem.mk i l none :: nodesF rest from by simp [nodesF]] at h ⊢
    rcases List.mem_cons.1 h with h1 | h1
    · subst h1
      simp [MenuItem.childrenD, MenuItem.children, nodesF]
    · exact List.Sublist.cons _ (ih h1)

theorem mem_nodesF_trans {n m : MenuItem} {F : List MenuItem} (hn : n ∈ nodesF F)
    (hm : m ∈ nodesF n.childrenD) : m ∈ nodesF F :=
  (nodesF_sublist_children hn).subset hm

theorem nodesF_children_length_lt :
    ∀ {F : List MenuItem} {n : MenuItem}, n ∈ nodesF F →
      (nodesF n.childrenD).length < (nodesF F).length := by
  intro F
  induction F using forestInd with
  | h0 => intro n h; rw [show nodesF [] = [] from by simp [nodesF]] at h; cases h
  | h1 i l cs rest ih1 ih2 =>
    intro n h
    rw [show nodesF (MenuItem.mk i l (some cs) :: rest)
          = MenuItem.mk i l (some cs) :: (nodesF cs ++ nodesF rest) from by simp [nodesF]] at h ⊢
    rcases List.mem_cons.1 h with h1 | h1
    · subst h1
      simp only [MenuItem.childrenD, MenuItem.children, Option.getD, List.length_cons,
        List.length_append]
      omega
    · rcases List.mem_append.1 h1 with h2 | h2
      · have := ih1 h2
        simp only [List.length_cons, List.length_append]
        omega
      · have := ih2 h2
        simp only [List.length_cons, List.length_append]
        omega
  | h2 i l rest ih =>
    intro n h
    rw [show nodesF (MenuItem.mk i l none :: rest)
          = MenuItem.mk i l none :: nodesF rest from by simp [nodesF]] at h ⊢
    rcases List.mem_cons.1 h with h1 | h1
    · subst h1
      simp [MenuItem.childrenD, MenuItem.children, nodesF]
    · have := ih h1
      simp only [List.length_cons]
      omega

theorem not_mem_nodesF_children (x : MenuItem) : x ∉ nodesF x.childrenD := by
  intro h
  exact absurd (nodesF_children_length_lt h) (lt_irrefl _)

theorem heightF_pos (t : MenuItem) : 1 ≤ heightF [t] := by
  cases t with
  | mk i l c => cases c with
    | some cs =>
      simp only [heightF]
      omega
    | none =>
      simp only [heightF]
      omega

theorem heightF_mem {t : MenuItem} {ts : List MenuItem} (h : t ∈ ts) :
    heightF [t] ≤ heightF ts := by
  induction ts with
  | nil => cases h
  | cons a as ih =>
    have hc := heightF_cons a as
    rcases List.mem_cons.1 h with h1 | h1
    · subst h1
      rw [hc]
      omega
    · rw [hc]
      have := ih h1
      omega

theorem heightF_children_lt (t : MenuItem) : heightF t.childrenD < heightF [t] := by
  cases t with
  | mk i l c => cases c with
    | some cs =>
      simp only [heightF, MenuItem.childrenD, MenuItem.children, Option.getD]
      omega
    | none =>
      simp only [heightF, MenuItem.childrenD, MenuItem.children, Option.getD]
      omega

theorem heightF_le_ids_length : ∀ F : List MenuItem, heightF F ≤ (idsF F).length := by
  intro F
  induction F using forestInd with
  | h0 => simp [heightF, idsF]
  | h1 i l cs rest ih1 ih2 =>
    simp only [heightF, idsF, List.length_cons, List.length_append]
    omega
  | h2 i l rest ih =>
    simp only [heightF, idsF, List.length_cons]
    omega

theorem nodesF_id_unique :
    ∀ {F : List MenuItem}, (idsF F).Nodup →
      ∀ {n m : MenuItem}, n ∈ nodesF F → m ∈ nodesF F → n.id = m.id → n = m := by
  intro F
  induction F using forestInd with
  | h0 => intro _ n m hn; rw [show nodesF [] = [] from by simp [nodesF]] at hn; cases hn
  | h1 i l cs rest ih1 ih2 =>
    intro hd n m hn hm hid
    rw [show idsF (MenuItem.mk i l (some cs) :: rest) = i :: (idsF cs ++ idsF rest) from by
      simp [idsF]] at hd
    have hi : i ∉ idsF cs ++ idsF rest := (List.nodup_cons.1 hd).1
    have hrest := (List.nodup_cons.1 hd).2
    have hdc : (idsF cs).Nodup := (List.nodup_append.1 hrest).1
    have hdr : (idsF rest).Nodup := (List.nodup_append.1 hrest).2.1
    have hdisj : (idsF cs).Disjoint (idsF rest) := (List.nodup_append.1 hrest).2.2
    rw [show nodesF (MenuItem.mk i l (some cs) :: rest)
          = MenuItem.mk i l (some cs) :: (nodesF cs ++ nodesF rest) from by simp [nodesF]]
      at hn hm
    rcases List.mem_cons.1 hn with hn1 | hn1 <;> rcases List.mem_cons.1 hm with hm1 | hm1
    · rw [hn1, hm1]
    · exfalso
      subst hn1
      have hid2 : m.id = i := by simpa [MenuItem.id] using hid.symm
      rcases List.mem_append.1 hm1 with h2 | h2
      · exact hi (List.mem_append_left _ (hid2 ▸ mem_nodesF_id h2))
      · exact hi (List.mem_append_right _ (hid2 ▸ mem_nodesF_id h2))
    · exfalso
      subst hm1
      have hid2 : n.id = i := by simpa [MenuItem.id] using hid
      rcases List.mem_append.1 hn1 with h2 | h2
      · exact hi (List.mem_append_left _ (hid2 ▸ mem_nodesF_id h2))
      · exact hi (List.mem_append_right _ (hid2 ▸ mem_nodesF_id h2))
    · rcases List.mem_append.1 hn1 with h2 | h2 <;> rcases List.mem_append.1 hm1 with h3 | h3
      · exact ih1 hdc h2 h3 hid
      · exfalso
        have h4 : n.id ∈ idsF rest := by rw [hid]; exact mem_nodesF_id h3
        exact hdisj (mem_nodesF_id h2) h4
      · exfalso
        have h4 : n.id ∈ idsF cs := by rw [hid]; exact mem_nodesF_id h3
        exact hdisj h4 (mem_nodesF_id h2)
      · exact ih2 hdr h2 h3 hid
  | h2 i l rest ih =>
    intro hd n m hn hm hid
    rw [show idsF (MenuItem.mk i l none :: rest) = i :: idsF rest from by simp [idsF]] at hd
    have hi : i ∉ idsF rest := (List.nodup_cons.1 hd).1
    have hdr : (idsF rest).Nodup := (List.nodup_cons.1 hd).2
    rw [show nodesF (MenuItem.mk i l none :: rest)
          = MenuItem.mk i l none :: nodesF rest from by simp [nodesF]] at hn hm
    rcases List.mem_cons.1 hn with hn1 | hn1 <;> rcases List.mem_cons.1 hm with hm1 | hm1
    · rw [hn1, hm1]
    · exfalso
      subst hn1
      have hid2 : m.id = i := by simpa [MenuItem.id] using hid.symm
      exact hi (hid2 ▸ mem_nodesF_id hm1)
    · exfalso
      subst hm1
      have hid2 : n.id = i := by simpa [MenuItem.id] using hid
      exact hi (hid2 ▸ mem_nodesF_id hn1)
    · exact ih hdr hn1 hm1 hid

theorem findNodeF_eq_none : ∀ {F : List MenuItem} {q : String}, q ∉ idsF F →
    findNodeF F q = none := by
  intro F
  induction F using forestInd with
  | h0 => intro q _; simp [findNodeF]
  | h1 i l cs rest ih1 ih2 =>
    intro q hq
    rw [show idsF (MenuItem.mk i l (some cs) :: rest) = i :: (idsF cs ++ idsF rest) from by
      simp [idsF]] at hq
    simp only [List.mem_cons, List.mem_append, not_or] at hq
    simp [findNodeF, ih1 hq.2.1, ih2 hq.2.2, Ne.symm hq.1]
  | h2 i l rest ih =>
    intro q hq
    rw [show idsF (MenuItem.mk i l none :: rest) = i :: idsF rest from by simp [idsF]] at hq
    simp only [List.mem_cons, not_or] at hq
    simp [findNodeF, ih hq.2, Ne.symm hq.1]

theorem findNodeF_some_mem :
    ∀ {F : List MenuItem} {q : String} {n : MenuItem}, findNodeF F q = some n →
      n ∈ nodesF F ∧ n.id = q := by
  intro F
  induction F using forestInd with
  | h0 => intro q n h; simp [findNodeF] at h
  | h1 i l cs rest ih1 ih2 =>
    intro q n h
    rw [show nodesF (MenuItem.mk i l (some cs) :: rest)
          = MenuItem.mk i l (some cs) :: (nodesF cs ++ nodesF rest) from by simp [nodesF]]
    by_cases hiq : i = q
    · rw [show findNodeF (MenuItem.mk i l (some cs) :: rest) q
            = some (MenuItem.mk i l (some cs)) from by simp [findNodeF, hiq]] at h
      cases h
      exact ⟨List.mem_cons_self _ _, by simp [MenuItem.id, hiq]⟩
    · rw [show findNodeF (MenuItem.mk i l (some cs) :: rest) q
            = (match findNodeF cs q with
               | some n => some n
               | none => findNodeF rest q) from by simp [findNodeF, hiq]] at h
      cases hcs : findNodeF cs q with
      | some m =>
        rw [hcs] at h
        cases h
        have := ih1 hcs
        exact ⟨List.mem_cons_of_mem _ (List.mem_append_left _ this.1), this.2⟩
      | none =>
        rw [hcs] at h
        have := ih2 h
        exact ⟨List.mem_cons_of_mem _ (List.mem_append_right _ this.1), this.2⟩
  | h2 i l rest ih =>
    intro q n h
    rw [show nodesF (MenuItem.mk i l none :: rest)
          = MenuItem.mk i l none :: nodesF rest from by simp [nodesF]]
    by_cases hiq : i = q
    · rw [show findNodeF (MenuItem.mk i l none :: rest) q = some (MenuItem.mk i l none) from by
        simp [findNodeF, hiq]] at h
      cases h
      exact ⟨List.mem_cons_self _ _, by simp [MenuItem.id, hiq]⟩
    · rw [show findNodeF (MenuItem.mk i l none :: rest) q = findNodeF rest q from by
        simp [findNodeF, hiq]] at h
      have := ih h
      exact ⟨List.mem_cons_of_mem _ this.1, this.2⟩

theorem findNodeF_none_imp : ∀ {F : List MenuItem} {q : String},
    findNodeF F q = none → q ∉ idsF F := by
  intro F
  induction F using forestInd with
  | h0 => intro q _; simp [idsF]
  | h1 i l cs rest ih1 ih2 =>
    intro q h
    by_cases hiq : i = q
    · rw [show findNodeF (MenuItem.mk i l (some cs) :: rest) q
            = some (MenuItem.mk i l (some cs)) from by simp [findNodeF, hiq]] at h
      cases h
    · rw [show findNodeF (MenuItem.mk i l (some cs) :: rest) q
            = (match findNodeF cs q with
               | some n => some n
               | none => findNodeF rest q) from by simp [findNodeF, hiq]] at h
      cases hcs : findNodeF cs q with
      | some m => rw [hcs] at h; cases h
      | none =>
        rw [hcs] at h
        rw [show idsF (MenuItem.mk i l (some cs) :: rest) = i :: (idsF cs ++ idsF rest) from by
          simp [idsF]]
        simp only [List.mem_cons, List.mem_append, not_or]
        exact ⟨fun hc => hiq hc.symm, ih1 hcs, ih2 h⟩
  | h2 i l rest ih =>
    intro q h
    by_cases hiq : i = q
    · rw [show findNodeF (MenuItem.mk i l none :: rest) q = some (MenuItem.mk i l none) from by
        simp [findNodeF, hiq]] at h
      cases h
    · rw [show findNodeF (MenuItem.mk i l none :: rest) q = findNodeF rest q from by
        simp [findNodeF, hiq]] at h
      rw [show idsF (MenuItem.mk i l none :: rest) = i :: idsF rest from by simp [idsF]]
      simp only [List.mem_cons, not_or]
      exact ⟨fun hc => hiq hc.symm, ih h⟩

theorem findNodeF_isSome {F : List MenuItem} {q : String} (hq : q ∈ idsF F) :
    ∃ n, findNodeF F q = some n := by
  cases h : findNodeF F q with
  | some n => exact ⟨n, rfl⟩
  | none => exact absurd hq (findNodeF_none_imp h)

theorem findNodeF_of_mem {F : List MenuItem} {n : MenuItem} (hd : (idsF F).Nodup)
    (hn : n ∈ nodesF F) : findNodeF F n.id = some n := by
  obtain ⟨m, hm⟩ := findNodeF_isSome (mem_nodesF_id hn)
  obtain ⟨hmem, hid⟩ := findNodeF_some_mem hm
  rw [hm, nodesF_id_unique hd hmem hn hid]

theorem nodesF_cons_self_sublist :
    ∀ {F : List MenuItem} {n : MenuItem}, n ∈ nodesF F →
      (n :: nodesF n.childrenD).Sublist (nodesF F) := by
  intro F
  induction F using forestInd with
  | h0 => intro n h; rw [show nodesF [] = [] from by simp [nodesF]] at h; cases h
  | h1 i l cs rest ih1 ih2 =>
    intro n h
    rw [show nodesF (MenuItem.mk i l (some cs) :: rest)
          = MenuItem.mk i l (some cs) :: (nodesF cs ++ nodesF rest) from by simp [nodesF]] at h ⊢
    rcases List.mem_cons.1 h with h1 | h1
    · subst h1
      exact List.Sublist.cons₂ _ (List.sublist_append_left (nodesF cs) (nodesF rest))
    · rcases List.mem_append.1 h1 with h2 | h2
      · exact List.Sublist.cons _
          (List.Sublist.trans (ih1 h2) (List.sublist_append_left _ _))
      · exact List.Sublist.cons _
          (List.Sublist.trans (ih2 h2) (List.sublist_append_right _ _))
  | h2 i l rest ih =>
    intro n h
    rw [show nodesF (MenuItem.mk i l none :: rest)
          = MenuItem.mk i l none :: nodesF rest from by simp [nodesF]] at h ⊢
    rcases List.mem_cons.1 h with h1 | h1
    · subst h1
      simp only [MenuItem.childrenD, MenuItem.children, Option.getD, nodesF]
      exact List.Sublist.cons₂ _ (List.nil_sublist _)
    · exact List.Sublist.cons _ (ih h1)

theorem ids_not_self_children {F : List MenuItem} {n : MenuItem}
    (hd : (idsF F).Nodup) (hn : n ∈ nodesF F) : n.id ∉ idsF n.childrenD := by
  have hsub : ((n :: nodesF n.childrenD).map MenuItem.id).Sublist ((nodesF F).map MenuItem.id) :=
    List.Sublist.map _ (nodesF_cons_self_sublist hn)
  rw [← idsF_eq_map] at hsub
  have hnd := List.Nodup.sublist hsub hd
  rw [List.map_cons, ← idsF_eq_map] at hnd
  exact (List.nodup_cons.1 hnd).1

theorem checkSubtree_iff : ∀ (F : List MenuItem) (t : String),
    checkSubtree t F = true ↔ t ∈ idsF F := by
  intro F
  induction F using forestInd with
  | h0 => intro t; simp [checkSubtree, idsF]
  | h1 i l cs rest ih1 ih2 =>
    intro t
    by_cases hit : i = t
    · simp [checkSubtree, idsF, hit]
    · simp only [checkSubtree, idsF]
      rw [if_neg (by simpa using hit)]
      by_cases hcs : checkSubtree t cs = true
      · simp [hcs, ih1 t |>.1 hcs]
      · simp only [Bool.not_eq_true] at hcs
        have hncs : t ∉ idsF cs := fun hm => by simp [(ih1 t).2 hm] at hcs
        simp [hcs, ih2, Ne.symm hit, hncs]
  | h2 i l rest ih =>
    intro t
    by_cases hit : i = t
    · simp [checkSubtree, idsF, hit]
    · simp only [checkSubtree, idsF]
      rw [if_neg (by simpa using hit)]
      simp [ih, Ne.symm hit]

theorem findInChildren_imp :
    ∀ {F : List MenuItem} {p t : String}, findInChildren p t F = true →
      ∃ n, n ∈ nodesF F ∧ n.id = p ∧ t ∈ idsF n.childrenD := by
  intro F
  induction F using forestInd with
  | h0 => intro p t h; simp [findInChildren] at h
  | h1 i l cs rest ih1 ih2 =>
    intro p t h
    have hnodes : nodesF (MenuItem.mk i l (some cs) :: rest)
        = MenuItem.mk i l (some cs) :: (nodesF cs ++ nodesF rest) := by simp [nodesF]
    by_cases hip : i = p
    · rw [show findInChildren p t (MenuItem.mk i l (some cs) :: rest) = checkSubtree t cs
          from by simp [findInChildren, hip]] at h
      refine ⟨MenuItem.mk i l (some cs), ?_, by simp [MenuItem.id, hip], ?_⟩
      · rw [hnodes]; exact List.mem_cons_self _ _
      · simpa [MenuItem.childrenD, MenuItem.children] using (checkSubtree_iff cs t).1 h
    · rw [show findInChildren p t (MenuItem.mk i l (some cs) :: rest)
          = (if findInChildren p t cs then true else findInChildren p t rest)
          from by simp [findInChildren, hip]] at h
      by_cases hcs : findInChildren p t cs = true
      · obtain ⟨n, hn, hid, ht⟩ := ih1 hcs
        exact ⟨n, by rw [hnodes]; exact List.mem_cons_of_mem _ (List.mem_append_left _ hn),
          hid, ht⟩
      · simp only [Bool.not_eq_true] at hcs
        rw [if_neg (by simp [hcs])] at h
        obtain ⟨n, hn, hid, ht⟩ := ih2 h
        exact ⟨n, by rw [hnodes]; exact List.mem_cons_of_mem _ (List.mem_append_right _ hn),
          hid, ht⟩
  | h2 i l rest ih =>
    intro p t h
    have hnodes : nodesF (MenuItem.mk i l none :: rest)
        = MenuItem.mk i l none :: nodesF rest := by simp [nodesF]
    by_cases hip : i = p
    · rw [show findInChildren p t (MenuItem.mk i l none :: rest) = false
          from by simp [findInChildren, hip]] at h
      cases h
    · rw [show findInChildren p t (MenuItem.mk i l none :: rest) = findInChildren p t rest
          from by simp [findInChildren, hip]] at h
      obtain ⟨n, hn, hid, ht⟩ := ih h
      exact ⟨n, by rw [hnodes]; exact List.mem_cons_of_mem _ hn, hid, ht⟩

theorem findInChildren_of_spec :
    ∀ {F : List MenuItem} {p t : String}, (idsF F).Nodup →
      (∃ n, n ∈ nodesF F ∧ n.id = p ∧ t ∈ idsF n.childrenD) →
      findInChildren p t F = true := by
  intro F
  induction F using forestInd with
  | h0 =>
    intro p t _ h
    obtain ⟨n, hn, _, _⟩ := h
    rw [show nodesF [] = [] from by simp [nodesF]] at hn
    cases hn
  | h1 i l cs rest ih1 ih2 =>
    intro p t hd h
    obtain ⟨n, hn, hid, ht⟩ := h
    have hids : idsF (MenuItem.mk i l (some cs) :: rest) = i :: (idsF cs ++ idsF rest) := by
      simp [idsF]
    have hnodes : nodesF (MenuItem.mk i l (some cs) :: rest)
        = MenuItem.mk i l (some cs) :: (nodesF cs ++ nodesF rest) := by simp [nodesF]
    rw [hids] at hd
    have hdc : (idsF cs).Nodup := (List.nodup_append.1 (List.nodup_cons.1 hd).2).1
    have hdr : (idsF rest).Nodup := (List.nodup_append.1 (List.nodup_cons.1 hd).2).2.1
    by_cases hip : i = p
    · rw [show findInChildren p t (MenuItem.mk i l (some cs) :: rest) = checkSubtree t cs
          from by simp [findInChildren, hip]]
      have hhead : MenuItem.mk i l (some cs) ∈ nodesF (MenuItem.mk i l (some cs) :: rest) := by
        rw [hnodes]; exact List.mem_cons_self _ _
      have heq : n = MenuItem.mk i l (some cs) := by
        refine nodesF_id_unique (by rw [hids]; exact hd) hn hhead ?_
        rw [show (MenuItem.mk i l (some cs)).id = i from rfl, hid, hip]
      subst heq
      simp only [MenuItem.childrenD, MenuItem.children, Option.getD] at ht
      exact (checkSubtree_iff cs t).2 ht
    · rw [show findInChildren p t (MenuItem.mk i l (some cs) :: rest)
          = (if findInChildren p t cs then true else findInChildren p t rest)
          from by simp [findInChildren, hip]]
      rw [hnodes] at hn
      rcases List.mem_cons.1 hn with h1 | h1
      · exfalso
        apply hip
        rw [← hid, h1]
        simp [MenuItem.id]
      · rcases List.mem_append.1 h1 with h2 | h2
        · rw [ih1 hdc ⟨n, h2, hid, ht⟩]
          simp
        · by_cases hcs : findInChildren p t cs = true
          · simp [hcs]
          · simp only [Bool.not_eq_true] at hcs
            rw [if_neg (by simp [hcs])]
            exact ih2 hdr ⟨n, h2, hid, ht⟩
  | h2 i l rest ih =>
    intro p t hd h
    obtain ⟨n, hn, hid, ht⟩ := h
    have hids : idsF (MenuItem.mk i l none :: rest) = i :: idsF rest := by simp [idsF]
    have hnodes : nodesF (MenuItem.mk i l none :: rest)
        = MenuItem.mk i l none :: nodesF rest := by simp [nodesF]
    rw [hids] at hd
    by_cases hip : i = p
    · exfalso
      have hhead : MenuItem.mk i l none ∈ nodesF (MenuItem.mk i l none :: rest) := by
        rw [hnodes]; exact List.mem_cons_self _ _
      have heq : n = MenuItem.mk i l none := by
        refine nodesF_id_unique (by rw [hids]; exact hd) hn hhead ?_
        rw [show (MenuItem.mk i l none).id = i from rfl, hid, hip]
      subst heq
      simp [MenuItem.childrenD, MenuItem.children, idsF] at ht
    · rw [show findInChildren p t (MenuItem.mk i l none :: rest) = findInChildren p t rest
          from by simp [findInChildren, hip]]
      rw [hnodes] at hn
      rcases List.mem_cons.1 hn with h1 | h1
      · exfalso
        apply hip
        rw [← hid, h1]
        simp [MenuItem.id]
      · exact ih (List.nodup_cons.1 hd).2 ⟨n, h1, hid, ht⟩

/-- C6: for every tree with unique ids, `isDescendant(tree, ancestorId,
candidateId)` is true exactly when `candidateId` identifies a node lying
strictly inside the subtree rooted at the node identified by `ancestorId`;
in particular it is false when `ancestorId` is absent, when the ancestor
node has no children, and when the candidate equals the ancestor. -/
theorem isDescendant_correct (tree : List MenuItem) (aId cId : String)
    (hd : (idsF tree).Nodup) :
    (isDescendant tree aId cId = true ↔
      ∃ n, n ∈ nodesF tree ∧ n.id = aId ∧ cId ∈ idsF n.childrenD) ∧
    (aId ∉ idsF tree → isDescendant tree aId cId = false) ∧
    ((∃ n, n ∈ nodesF tree ∧ n.id = aId ∧ n.childrenD = []) →
      isDescendant tree aId cId = false) ∧
    (isDescendant tree aId aId = false) := by
  have hiff : isDescendant tree aId cId = true ↔
      ∃ n, n ∈ nodesF tree ∧ n.id = aId ∧ cId ∈ idsF n.childrenD := by
    constructor
    · intro h
      exact findInChildren_imp h
    · intro h
      exact findInChildren_of_spec hd h
  refine ⟨hiff, ?_, ?_, ?_⟩
  · intro habs
    cases hb : isDescendant tree aId cId with
    | false => rfl
    | true =>
      obtain ⟨n, hn, hid, _⟩ := hiff.1 hb
      exact absurd (hid ▸ mem_nodesF_id hn) habs
  · intro hleaf
    obtain ⟨n, hn, hid, hch⟩ := hleaf
    cases hb : isDescendant tree aId cId with
    | false => rfl
    | true =>
      obtain ⟨m, hm, hmid, hmc⟩ := hiff.1 hb
      have heq : m = n := nodesF_id_unique hd hm hn (by rw [hmid, hid])
      subst heq
      rw [hch] at hmc
      simp [idsF] at hmc
  · cases hb : isDescendant tree aId aId with
    | false => rfl
    | true =>
      have hiff2 : isDescendant tree aId aId = true ↔
          ∃ n, n ∈ nodesF tree ∧ n.id = aId ∧ aId ∈ idsF n.childrenD := by
        constructor
        · intro h
          exact findInChildren_imp h
        · intro h
          exact findInChildren_of_spec hd h
      obtain ⟨n, hn, hid, hself⟩ := hiff2.1 hb
      exact absurd (hid ▸ hself) (ids_not_self_children hd hn)

/-- Witness for C6 at the three-level tree A, B, C of the specification. -/
theorem isDescendant_correct_witness :
    (idsF [MenuItem.mk "A" "A" (some [MenuItem.mk "B" "B" (some [MenuItem.mk "C" "C" none])])]).Nodup ∧
    isDescendant [MenuItem.mk "A" "A" (some [MenuItem.mk "B" "B" (some [MenuItem.mk "C" "C" none])])]
      "A" "C" = true ∧
    isDescendant [MenuItem.mk "A" "A" (some [MenuItem.mk "B" "B" (some [MenuItem.mk "C" "C" none])])]
      "A" "A" = false := by
  have hd : (idsF [MenuItem.mk "A" "A"
      (some [MenuItem.mk "B" "B" (some [MenuItem.mk "C" "C" none])])]).Nodup := by
    simp only [idsF]
    decide
  refine ⟨hd, ?_, (isDescendant_correct _ "A" "C" hd).2.2.2⟩
  refine (isDescendant_correct _ "A" "C" hd).1.mpr
    ⟨MenuItem.mk "A" "A" (some [MenuItem.mk "B" "B" (some [MenuItem.mk "C" "C" none])]), ?_, rfl, ?_⟩
  · simp [nodesF]
  · simp [MenuItem.childrenD, MenuItem.children, idsF]

theorem removeItemById_not_mem :
    ∀ (F : List MenuItem) (id : String), id ∉ idsF (removeItemById F id) := by
  intro F
  induction F using forestInd with
  | h0 => intro id; simp [removeItemById, idsF]
  | h1 i l cs rest ih1 ih2 =>
    intro id
    by_cases hid : i = id
    · rw [show removeItemById (MenuItem.mk i l (some cs) :: rest) id = removeItemById rest id
        from by simp [removeItemById, hid]]
      exact ih2 id
    · rw [show removeItemById (MenuItem.mk i l (some cs) :: rest) id
          = MenuItem.mk i l (some (removeItemById cs id)) :: removeItemById rest id
        from by simp [removeItemById, hid]]
      rw [show idsF (MenuItem.mk i l (some (removeItemById cs id)) :: removeItemById rest id)
          = i :: (idsF (removeItemById cs id) ++ idsF (removeItemById rest id)) from by
        simp [idsF]]
      simp only [List.mem_cons, List.mem_append, not_or]
      exact ⟨fun hc => hid hc.symm, ih1 id, ih2 id⟩
  | h2 i l rest ih =>
    intro id
    by_cases hid : i = id
    · rw [show removeItemById (MenuItem.mk i l none :: rest) id = removeItemById rest id
        from by simp [removeItemById, hid]]
      exact ih id
    · rw [show removeItemById (MenuItem.mk i l none :: rest) id
          = MenuItem.mk i l none :: removeItemById rest id from by simp [removeItemById, hid]]
      rw [show idsF (MenuItem.mk i l none :: removeItemById rest id)
          = i :: idsF (removeItemById rest id) from by simp [idsF]]
      simp only [List.mem_cons, not_or]
      exact ⟨fun hc => hid hc.symm, ih id⟩

/-- C10: `removeItemById` (the page-level prune) removes the identified node
with its entire subtree (the id is gone from the result), and it never
collapses an emptied children list: a node whose only child was the removed
node keeps an explicit empty children array in the result. -/
theorem removeItemById_spec (tree : List MenuItem) (id : String) :
    id ∉ idsF (removeItemById tree id) ∧
    (∀ i l c, (idsF tree).Nodup → c.id = id →
      MenuItem.mk i l (some [c]) ∈ nodesF tree →
      MenuItem.mk i l (some []) ∈ nodesF (removeItemById tree id)) := by
  refine ⟨removeItemById_not_mem tree id, ?_⟩
  induction tree using forestInd with
  | h0 =>
    intro i l c _ _ hmem
    rw [show nodesF [] = [] from by simp [nodesF]] at hmem
    cases hmem
  | h1 j lb ds rest ih1 ih2 =>
    intro i l c hd hcid hmem
    have hids : idsF (MenuItem.mk j lb (some ds) :: rest) = j :: (idsF ds ++ idsF rest) := by
      simp [idsF]
    rw [hids] at hd
    have hdc : (idsF ds).Nodup := (List.nodup_append.1 (List.nodup_cons.1 hd).2).1
    have hdr : (idsF rest).Nodup := (List.nodup_append.1 (List.nodup_cons.1 hd).2).2.1
    have hj : j ∉ idsF ds ++ idsF rest := (List.nodup_cons.1 hd).1
    rw [show nodesF (MenuItem.mk j lb (some ds) :: rest)
          = MenuItem.mk j lb (some ds) :: (nodesF ds ++ nodesF rest) from by simp [nodesF]]
      at hmem
    have hremc : removeItemById [c] id = [] := by
      cases c with
      | mk ci cl cc =>
        simp only [MenuItem.id] at hcid
        cases cc with
        | some ccs => simp [removeItemById, hcid]
        | none => simp [removeItemById, hcid]
    rcases List.mem_cons.1 hmem with h1 | h1
    · -- the parent is the head node itself
      have hji : j = i := by
        have := congrArg MenuItem.id h1.symm
        simpa [MenuItem.id] using this
      have hds : ds = [c] := by
        have := congrArg MenuItem.children h1.symm
        simpa [MenuItem.children] using this
      have hjne : j ≠ id := by
        intro hc
        apply hj
        refine List.mem_append_left _ ?_
        rw [hds, hc, ← hcid]
        exact mem_nodesF_id (mem_nodesF_of_mem (List.mem_cons_self _ _))
      rw [show removeItemById (MenuItem.mk j lb (some ds) :: rest) id
            = MenuItem.mk j lb (some (removeItemById ds id)) :: removeItemById rest id
          from by simp [removeItemById, hjne]]
      rw [nodesF_cons]
      have hlb : lb = l := by
        have := congrArg MenuItem.label h1.symm
        simpa [MenuItem.label] using this
      rw [hds, hremc, hji, hlb]
      exact List.mem_cons_self _ _
    · rcases List.mem_append.1 h1 with h2 | h2
      · -- the parent lies inside the children of the head node
        have hjne : j ≠ id := by
          intro hc
          apply hj
          refine List.mem_append_left _ ?_
          have hcmem : c ∈ nodesF ds := by
            refine mem_nodesF_trans h2 ?_
            simp only [MenuItem.childrenD, MenuItem.children, Option.getD]
            exact mem_nodesF_of_mem (List.mem_cons_self _ _)
          rw [hc, ← hcid]
          exact mem_nodesF_id hcmem
        rw [show removeItemById (MenuItem.mk j lb (some ds) :: rest) id
              = MenuItem.mk j lb (some (removeItemById ds id)) :: removeItemById rest id
            from by simp [removeItemById, hjne]]
        rw [nodesF_cons]
        refine List.mem_cons_of_mem _ (List.mem_append_left _ ?_)
        exact ih1 i l c hdc hcid h2
      · -- the parent lies in the remaining siblings
        by_cases hjne : j = id
        · rw [show removeItemById (MenuItem.mk j lb (some ds) :: rest) id
                = removeItemById rest id from by simp [removeItemById, hjne]]
          exact ih2 i l c hdr hcid h2
        · rw [show removeItemById (MenuItem.mk j lb (some ds) :: rest) id
                = MenuItem.mk j lb (some (removeItemById ds id)) :: removeItemById rest id
              from by simp [removeItemById, hjne]]
          rw [nodesF_cons]
          refine List.mem_cons_of_mem _ (List.mem_append_right _ ?_)
          simpa [MenuItem.childrenD, MenuItem.children] using ih2 i l c hdr hcid h2
  | h2 j lb rest ih =>
    intro i l c hd hcid hmem
    have hids : idsF (MenuItem.mk j lb none :: rest) = j :: idsF rest := by simp [idsF]
    rw [hids] at hd
    have hdr : (idsF rest).Nodup := (List.nodup_cons.1 hd).2
    rw [show nodesF (MenuItem.mk j lb none :: rest)
          = MenuItem.mk j lb none :: nodesF rest from by simp [nodesF]] at hmem
    rcases List.mem_cons.1 hmem with h1 | h1
    · exact absurd (congrArg MenuItem.children h1.symm) (by simp [MenuItem.children])
    · by_cases hjne : j = id
      · rw [show removeItemById (MenuItem.mk j lb none :: rest) id = removeItemById rest id
            from by simp [removeItemById, hjne]]
        exact ih i l c hdr hcid h1
      · rw [show removeItemById (MenuItem.mk j lb none :: rest) id
              = MenuItem.mk j lb none :: removeItemById rest id
            from by simp [removeItemById, hjne]]
        rw [nodesF_cons]
        refine List.mem_cons_of_mem _ ?_
        simpa [MenuItem.childrenD, MenuItem.children, nodesF] using ih i l c hdr hcid h1

/-- Witness for C10: pruning the only child c of p leaves p with an explicit
empty children array. -/
theorem removeItemById_spec_witness :
    (idsF [MenuItem.mk "p" "P" (some [MenuItem.mk "c" "C" none])]).Nodup ∧
    "c" ∉ idsF (removeItemById [MenuItem.mk "p" "P" (some [MenuItem.mk "c" "C" none])] "c") ∧
    MenuItem.mk "p" "P" (some [])
      ∈ nodesF (removeItemById [MenuItem.mk "p" "P" (some [MenuItem.mk "c" "C" none])] "c") := by
  have hd : (idsF [MenuItem.mk "p" "P" (some [MenuItem.mk "c" "C" none])]).Nodup := by
    simp only [idsF]
    decide
  refine ⟨hd,
    (removeItemById_spec [MenuItem.mk "p" "P" (some [MenuItem.mk "c" "C" none])] "c").1,
    (removeItemById_spec [MenuItem.mk "p" "P" (some [MenuItem.mk "c" "C" none])] "c").2
      "p" "P" (MenuItem.mk "c" "C" none) hd rfl ?_⟩
  simp [nodesF]

theorem remove_snd_match {i : String} (l : String) (c : Option (List MenuItem))
    (rest : List MenuItem) {id : String} (h : i = id) :
    (removeItemFromTree (MenuItem.mk i l c :: rest) id).2
      = (removeItemFromTree rest id).2 := by
  cases c with
  | some cs => simp [removeItemFromTree, h]
  | none => simp [removeItemFromTree, h]

theorem remove_snd_some {i : String} (l : String) {cs : List MenuItem}
    (rest : List MenuItem) {id : String} (h : ¬i = id) (hcs : cs ≠ []) :
    (removeItemFromTree (MenuItem.mk i l (some cs) :: rest) id).2
      = MenuItem.mk i l
          (if (removeItemFromTree cs id).2.length > 0
           then some (removeItemFromTree cs id).2 else none)
        :: (removeItemFromTree rest id).2 := by
  have hlen : cs.length > 0 := List.length_pos.2 hcs
  simp [removeItemFromTree, h, hlen]

theorem remove_snd_some_nil {i : String} (l : String) (rest : List MenuItem)
    {id : String} (h : ¬i = id) :
    (removeItemFromTree (MenuItem.mk i l (some []) :: rest) id).2
      = MenuItem.mk i l (some []) :: (removeItemFromTree rest id).2 := by
  simp [removeItemFromTree, h]

theorem remove_snd_none {i : String} (l : String) (rest : List MenuItem)
    {id : String} (h : ¬i = id) :
    (removeItemFromTree (MenuItem.mk i l none :: rest) id).2
      = MenuItem.mk i l none :: (removeItemFromTree rest id).2 := by
  simp [removeItemFromTree, h]

/-- Counterexample for C9: the id b is present, removing it leaves the
sibling a with its pre-existing explicit empty children array, so the
result does contain a node with an explicit empty children list. -/
theorem removeItemFromTree_empty_counterexample :
    "b" ∈ idsF [MenuItem.mk "a" "A" (some []), MenuItem.mk "b" "B" none] ∧
    (removeItemFromTree [MenuItem.mk "a" "A" (some []), MenuItem.mk "b" "B" none] "b").2
      = [MenuItem.mk "a" "A" (some [])] ∧
    noEmptyF
      (removeItemFromTree [MenuItem.mk "a" "A" (some []), MenuItem.mk "b" "B" none] "b").2
      = false := by
  refine ⟨by simp [idsF], ?_, ?_⟩
  · simp [removeItemFromTree]
  · simp [removeItemFromTree, noEmptyF]

/-- C9 (amended): removal never creates an explicit empty children list —
a children list emptied by the removal collapses to the absent
representation, and when the input holds no explicit empty children list
neither does the result.  (Pre-existing explicit empty lists are copied
through untouched, which is what refutes the unconditional claim.) -/
theorem removeItemFromTree_noEmpty (tree : List MenuItem) (id : String)
    (h : noEmptyF tree = true) :
    noEmptyF (removeItemFromTree tree id).2 = true := by
  induction tree using forestInd with
  | h0 => simpa [removeItemFromTree] using h
  | h1 i l cs rest ih1 ih2 =>
    rw [show noEmptyF (MenuItem.mk i l (some cs) :: rest)
          = (!cs.isEmpty && noEmptyF cs && noEmptyF rest) from by simp [noEmptyF]] at h
    simp only [Bool.and_eq_true, Bool.not_eq_true'] at h
    have hcs : cs ≠ [] := by
      intro hc
      rw [hc] at h
      simp [List.isEmpty] at h
    by_cases hiq : i = id
    · rw [remove_snd_match l (some cs) rest hiq]
      exact ih2 h.2
    · rw [remove_snd_some l rest hiq hcs]
      by_cases hlen : (removeItemFromTree cs id).2.length > 0
      · rw [if_pos hlen]
        rw [show noEmptyF (MenuItem.mk i l (some (removeItemFromTree cs id).2)
              :: (removeItemFromTree rest id).2)
            = (!(removeItemFromTree cs id).2.isEmpty && noEmptyF (removeItemFromTree cs id).2
               && noEmptyF (removeItemFromTree rest id).2) from by simp [noEmptyF]]
        have hne : (removeItemFromTree cs id).2.isEmpty = false := by
          cases hv : (removeItemFromTree cs id).2 with
          | nil => rw [hv] at hlen; simp at hlen
          | cons a as => simp [List.isEmpty]
        simp [hne, ih1 h.1.2, ih2 h.2]
      · rw [if_neg hlen]
        rw [show noEmptyF (MenuItem.mk i l none :: (removeItemFromTree rest id).2)
            = noEmptyF (removeItemFromTree rest id).2 from by simp [noEmptyF]]
        exact ih2 h.2
  | h2 i l rest ih =>
    rw [show noEmptyF (MenuItem.mk i l none :: rest) = noEmptyF rest from by simp [noEmptyF]]
      at h
    by_cases hiq : i = id
    · rw [remove_snd_match l none rest hiq]
      exact ih h
    · rw [remove_snd_none l rest hiq]
      rw [show noEmptyF (MenuItem.mk i l none :: (removeItemFromTree rest id).2)
          = noEmptyF (removeItemFromTree rest id).2 from by simp [noEmptyF]]
      exact ih h

/-- Witness for C9 (amended): removing the only child of p collapses the
emptied children list of p to the absent representation. -/
theorem removeItemFromTree_noEmpty_witness :
    noEmptyF [MenuItem.mk "p" "P" (some [MenuItem.mk "c" "C" none])] = true ∧
    noEmptyF
      (removeItemFromTree [MenuItem.mk "p" "P" (some [MenuItem.mk "c" "C" none])] "c").2
      = true ∧
    (removeItemFromTree [MenuItem.mk "p" "P" (some [MenuItem.mk "c" "C" none])] "c").2
      = [MenuItem.mk "p" "P" none] := by
  refine ⟨by simp [noEmptyF],
    removeItemFromTree_noEmpty [MenuItem.mk "p" "P" (some [MenuItem.mk "c" "C" none])] "c"
      (by simp [noEmptyF]), ?_⟩
  simp [removeItemFromTree]


/-!  Step equations for concrete evaluation of the recursively defined
operations.  The general simp unfolding of the well-founded equations is
expensive on concrete inputs, so the claims below drive computation with
these small rewrite steps instead. -/

theorem remove_nil_eq (id : String) : removeItemFromTree [] id = (none, []) := by
  simp [removeItemFromTree]

theorem remove_cons_hit_eq {i id : String} (l : String) (c : Option (List MenuItem))
    (rest : List MenuItem) (h : (i == id) = true) :
    removeItemFromTree (MenuItem.mk i l c :: rest) id
      = (match (removeItemFromTree rest id).1 with
         | some r => some r
         | none => some (MenuItem.mk i l c), (removeItemFromTree rest id).2) := by
  cases c with
  | some cs => simp [removeItemFromTree, h]
  | none => simp [removeItemFromTree, h]

theorem remove_cons_none_ne_eq {i id : String} (l : String) (rest : List MenuItem)
    (h : (i == id) = false) :
    removeItemFromTree (MenuItem.mk i l none :: rest) id
      = ((removeItemFromTree rest id).1,
         MenuItem.mk i l none :: (removeItemFromTree rest id).2) := by
  simp [removeItemFromTree, h]

theorem remove_cons_some_cons_ne_eq {i id : String} (l : String) (c0 : MenuItem)
    (cs : List MenuItem) (rest : List MenuItem) (h : (i == id) = false) :
    removeItemFromTree (MenuItem.mk i l (some (c0 :: cs)) :: rest) id
      = (match (removeItemFromTree rest id).1 with
         | some r => some r
         | none => (removeItemFromTree (c0 :: cs) id).1,
         MenuItem.mk i l
           (if (removeItemFromTree (c0 :: cs) id).2.length > 0
            then some (removeItemFromTree (c0 :: cs) id).2 else none)
           :: (removeItemFromTree rest id).2) := by
  simp [removeItemFromTree, h]

theorem ins_nil_eq (item : MenuItem) (t : String) (pos : InsertPos) :
    insertItemInTree [] item t pos = [] := by
  simp [insertItemInTree]

theorem ins_inside_hit_eq {i t : String} (l : String) (c : Option (List MenuItem))
    (rest : List MenuItem) (item : MenuItem) (h : (i == t) = true) :
    insertItemInTree (MenuItem.mk i l c :: rest) item t InsertPos.inside
      = MenuItem.mk i l (some ((c.getD []) ++ [item]))
        :: insertItemInTree rest item t InsertPos.inside := by
  cases c with
  | some cs => simp [insertItemInTree, h]
  | none => simp [insertItemInTree, h]

theorem ins_inside_some_miss_eq {i t : String} (l : String) (cs : List MenuItem)
    (rest : List MenuItem) (item : MenuItem) (h : (i == t) = false) :
    insertItemInTree (MenuItem.mk i l (some cs) :: rest) item t InsertPos.inside
      = MenuItem.mk i l (some (insertItemInTree cs item t InsertPos.inside))
        :: insertItemInTree rest item t InsertPos.inside := by
  simp [insertItemInTree, h]

theorem ins_inside_none_miss_eq {i t : String} (l : String) (rest : List MenuItem)
    (item : MenuItem) (h : (i == t) = false) :
    insertItemInTree (MenuItem.mk i l none :: rest) item t InsertPos.inside
      = MenuItem.mk i l none :: insertItemInTree rest item t InsertPos.inside := by
  simp [insertItemInTree, h]

theorem flatten_nil_eq (pid : Option String) : flattenWithParent [] pid = [] := by
  simp [flattenWithParent]

theorem flatten_cons_some_eq (i l : String) (cs rest : List MenuItem) (pid : Option String) :
    flattenWithParent (MenuItem.mk i l (some cs) :: rest) pid
      = ⟨i, l, some cs, pid⟩
        :: (flattenWithParent cs (some i) ++ flattenWithParent rest pid) := by
  simp [flattenWithParent]

theorem flatten_cons_none_eq (i l : String) (rest : List MenuItem) (pid : Option String) :
    flattenWithParent (MenuItem.mk i l none :: rest) pid
      = ⟨i, l, none, pid⟩ :: flattenWithParent rest pid := by
  simp [flattenWithParent]

theorem c4_remove_eval :
    removeItemFromTree
        [MenuItem.mk "about" "About Us" none,
         MenuItem.mk "collections" "Collections"
           (some [MenuItem.mk "spring" "Spring" none, MenuItem.mk "summer" "Summer" none])]
        "spring"
      = (some (MenuItem.mk "spring" "Spring" none),
         [MenuItem.mk "about" "About Us" none,
          MenuItem.mk "collections" "Collections"
            (some [MenuItem.mk "summer" "Summer" none])]) := by
  rw [remove_cons_none_ne_eq _ _ (by decide)]
  rw [remove_cons_some_cons_ne_eq _ _ _ _ (by decide)]
  rw [remove_cons_hit_eq _ _ _ (by decide)]
  rw [remove_cons_none_ne_eq _ _ (by decide)]
  rw [remove_nil_eq]
  simp

theorem c4_insert_eval :
    insertItemInTree
        [MenuItem.mk "about" "About Us" none,
         MenuItem.mk "collections" "Collections" (some [MenuItem.mk "summer" "Summer" none])]
        (MenuItem.mk "spring" "Spring" none) "collections" InsertPos.inside
      = [MenuItem.mk "about" "About Us" none,
         MenuItem.mk "collections" "Collections"
           (some [MenuItem.mk "summer" "Summer" none, MenuItem.mk "spring" "Spring" none])] := by
  rw [ins_inside_none_miss_eq _ _ _ (by decide)]
  rw [ins_inside_hit_eq _ _ _ _ (by decide)]
  rw [ins_nil_eq]
  simp

/-- Counterexample for C4: removing spring and re-inserting it inside
collections does not reproduce the original tree — spring comes back as
the last child, after summer, not in its original first position. -/
theorem insert_remove_scenario_counterexample :
    (removeItemFromTree
        [MenuItem.mk "about" "About Us" none,
         MenuItem.mk "collections" "Collections"
           (some [MenuItem.mk "spring" "Spring" none, MenuItem.mk "summer" "Summer" none])]
        "spring").1 = some (MenuItem.mk "spring" "Spring" none) ∧
    insertItemInTree
        (removeItemFromTree
          [MenuItem.mk "about" "About Us" none,
           MenuItem.mk "collections" "Collections"
             (some [MenuItem.mk "spring" "Spring" none, MenuItem.mk "summer" "Summer" none])]
          "spring").2
        (MenuItem.mk "spring" "Spring" none) "collections" InsertPos.inside
      ≠ [MenuItem.mk "about" "About Us" none,
         MenuItem.mk "collections" "Collections"
           (some [MenuItem.mk "spring" "Spring" none, MenuItem.mk "summer" "Summer" none])] := by
  rw [c4_remove_eval]
  refine ⟨rfl, ?_⟩
  rw [c4_insert_eval]
  simp

/-- C4 (amended): the remove/re-insert round trip on the scenario tree
returns the tree with spring as the new last child of collections, after
summer; every other part of the tree is unchanged. -/
theorem insert_remove_scenario :
    removeItemFromTree
        [MenuItem.mk "about" "About Us" none,
         MenuItem.mk "collections" "Collections"
           (some [MenuItem.mk "spring" "Spring" none, MenuItem.mk "summer" "Summer" none])]
        "spring"
      = (some (MenuItem.mk "spring" "Spring" none),
         [MenuItem.mk "about" "About Us" none,
          MenuItem.mk "collections" "Collections"
            (some [MenuItem.mk "summer" "Summer" none])]) ∧
    insertItemInTree
        (removeItemFromTree
          [MenuItem.mk "about" "About Us" none,
           MenuItem.mk "collections" "Collections"
             (some [MenuItem.mk "spring" "Spring" none, MenuItem.mk "summer" "Summer" none])]
          "spring").2
        (MenuItem.mk "spring" "Spring" none) "collections" InsertPos.inside
      = [MenuItem.mk "about" "About Us" none,
         MenuItem.mk "collections" "Collections"
           (some [MenuItem.mk "summer" "Summer" none, MenuItem.mk "spring" "Spring" none])] := by
  refine ⟨c4_remove_eval, ?_⟩
  rw [c4_remove_eval]
  exact c4_insert_eval

/-- C2 (evaluation of the code at the failing input): dropping A below B in
the flat list [A, B] returns the list unchanged — the dragged entry does
not end up immediately after the target.  The below-branch insertion index
`targetIdx + (draggedIdx < targetIdx ? 0 : 1)` is not compensated correctly
by the later `insertIdx > draggedIdx ? insertIdx - 1 : insertIdx` shift
when the dragged entry precedes the target, so the drop is a visual no-op
instead of placing the entry after the target. -/
theorem handleDropFlat_below_bug :
    handleDropFlat [⟨"A", "A", none, none⟩, ⟨"B", "B", none, none⟩] "A" "B" DragPos.below
      = [⟨"A", "A", none, none⟩, ⟨"B", "B", none, none⟩] ∧
    handleDropFlat [⟨"A", "A", none, none⟩, ⟨"B", "B", none, none⟩] "A" "B" DragPos.below
      ≠ [⟨"B", "B", none, none⟩, ⟨"A", "A", none, none⟩] := by
  refine ⟨rfl, ?_⟩
  rw [show handleDropFlat [⟨"A", "A", none, none⟩, ⟨"B", "B", none, none⟩] "A" "B" DragPos.below
      = [⟨"A", "A", none, none⟩, ⟨"B", "B", none, none⟩] from rfl]
  simp

theorem idsF_singleton (t : MenuItem) : idsF [t] = t.id :: idsF t.childrenD := by
  rw [idsF_cons]
  simp [idsF]

theorem mem_idsF_exists {a : String} :
    ∀ {ts : List MenuItem}, a ∈ idsF ts → ∃ t ∈ ts, a ∈ idsF [t] := by
  intro ts
  induction ts with
  | nil => intro h; simp [idsF] at h
  | cons t rest ih =>
    intro h
    rw [idsF_cons] at h
    rcases List.mem_cons.1 h with h1 | h1
    · exact ⟨t, List.mem_cons_self _ _, by rw [idsF_singleton, h1]; exact List.mem_cons_self _ _⟩
    · rcases List.mem_append.1 h1 with h2 | h2
      · exact ⟨t, List.mem_cons_self _ _,
          by rw [idsF_singleton]; exact List.mem_cons_of_mem _ h2⟩
      · obtain ⟨u, hu, hau⟩ := ih h2
        exact ⟨u, List.mem_cons_of_mem _ hu, hau⟩

theorem buildShell_ids_avoid {L : List FlatItem} (hd : (L.map (·.id)).Nodup)
    {e : FlatItem} (he : e ∈ L) {p : String} (hp : e.parentId = some p)
    (hpm : p ∉ L.map (·.id)) :
    ∀ (fuel : Nat) (q : String), q ≠ e.id → e.id ∉ idsF [buildShell L fuel q] := by
  intro fuel
  induction fuel with
  | zero =>
    intro q hq hmem
    rw [show buildShell L 0 q = MenuItem.mk q (shellLabel L q) (some []) from rfl] at hmem
    rw [idsF_singleton] at hmem
    simp only [MenuItem.childrenD, MenuItem.children, MenuItem.id, Option.getD, idsF] at hmem
    rcases List.mem_cons.1 hmem with h1 | h1
    · exact hq h1.symm
    · simp at h1
  | succ fuel ih =>
    intro q hq hmem
    rw [show buildShell L (fuel + 1) q
        = MenuItem.mk q (shellLabel L q)
            (some ((childEntryIds L q).map (buildShell L fuel))) from rfl] at hmem
    rw [idsF_singleton] at hmem
    simp only [MenuItem.childrenD, MenuItem.children, MenuItem.id, Option.getD] at hmem
    rcases List.mem_cons.1 hmem with h1 | h1
    · exact hq h1.symm
    · obtain ⟨t, ht, hat⟩ := mem_idsF_exists h1
      obtain ⟨q2, hq2, hbuild⟩ := List.mem_map.1 ht
      by_cases hqe : q2 = e.id
      · subst hqe
        obtain ⟨x, hx, hxid⟩ := List.mem_map.1 hq2
        have hxcond := List.of_mem_filter hx
        have hxmem := List.mem_of_mem_filter hx
        have hxe : x = e := by
          refine List.inj_on_of_nodup_map hd hxmem he ?_
          simpa using hxid
        subst hxe
        rw [hp] at hxcond
        simp only [Bool.and_eq_true] at hxcond
        exact absurd (by simpa using hxcond.2) hpm
      · rw [← hbuild] at hat
        exact ih q2 hqe hat

/-- Counterexample for C1: rebuilding a flat list with a single entry whose
parent reference is dangling returns normally with the entry silently
dropped — the embedding of `rebuildTreeFromFlat` is a total function into
trees with no error channel, and the dangling entry is simply absent from
the result instead of being rejected. -/
theorem rebuild_dangling_counterexample :
    rebuildTreeFromFlat [⟨"a", "A", none, some "zzz"⟩] = [] ∧
    "a" ∉ idsF (rebuildTreeFromFlat [⟨"a", "A", none, some "zzz"⟩]) := by
  refine ⟨rfl, ?_⟩
  rw [show rebuildTreeFromFlat [⟨"a", "A", none, some "zzz"⟩] = [] from rfl]
  simp [idsF]

/-- C1 (amended): rebuild signals no error on a dangling parent reference;
for any duplicate-free flat list, an entry whose parentId names an id
absent from the list is silently omitted from the reconstructed tree. -/
theorem rebuild_dangling_dropped {L : List FlatItem} (hd : (L.map (·.id)).Nodup)
    {e : FlatItem} (he : e ∈ L) {p : String} (hp : e.parentId = some p)
    (hpm : p ∉ L.map (·.id)) :
    e.id ∉ idsF (rebuildTreeFromFlat L) := by
  intro hmem
  rw [show rebuildTreeFromFlat L
      = (L.filter (fun x => x.parentId == none)).map
          (fun x => buildShell L L.length x.id) from rfl] at hmem
  obtain ⟨t, ht, hat⟩ := mem_idsF_exists hmem
  obtain ⟨r, hr, hbuild⟩ := List.mem_map.1 ht
  have hrroot := List.of_mem_filter hr
  have hrmem := List.mem_of_mem_filter hr
  have hrq : r.id ≠ e.id := by
    intro hc
    have : r = e := List.inj_on_of_nodup_map hd hrmem he (by simpa using hc)
    subst this
    rw [hp] at hrroot
    simp at hrroot
  rw [← hbuild] at hat
  exact buildShell_ids_avoid hd he hp hpm L.length r.id hrq hat

/-- Witness for C1 (amended) at a two-entry list with one dangling entry. -/
theorem rebuild_dangling_dropped_witness :
    (([⟨"r", "R", none, none⟩, ⟨"a", "A", none, some "zzz"⟩] :
        List FlatItem).map (fun x => x.id)).Nodup ∧
    "a" ∉ idsF (rebuildTreeFromFlat [⟨"r", "R", none, none⟩, ⟨"a", "A", none, some "zzz"⟩]) := by
  refine ⟨by decide, ?_⟩
  exact rebuild_dangling_dropped (by decide)
    (List.mem_cons_of_mem _ (List.mem_cons_self _ _)) rfl (by decide)
